import Mathlib

/-!
A verification development for the feature-flags service
(`app/feature_flag_service.py` together with the `FeatureFlag` model of
`app/models.py`).  The Python code is shallowly embedded: byte strings
become `List Nat` (each entry a byte), `hashlib.sha256` is implemented
bit-for-bit over `Nat` with explicit `% 2^32`, CPython's binary64
arithmetic (`hash_int / 0xFFFFFFFF` and `* 100`) is modelled by exact
round-to-nearest-even rounding of rationals, and the SQLAlchemy rows
become a Lean structure.  Machine integers are `Nat` throughout; all
definitions are executable so the kernel can evaluate them on concrete
inputs.
-/

namespace FeatureFlags

/-! ### UTF-8 encoding (Python `str.encode('utf-8')`) -/

/-- UTF-8 encoding of a single Unicode scalar value, as a list of bytes. -/
def utf8Char (n : Nat) : List Nat :=
  if n < 0x80 then [n]
  else if n < 0x800 then
    [0xC0 ||| (n >>> 6), 0x80 ||| (n &&& 0x3F)]
  else if n < 0x10000 then
    [0xE0 ||| (n >>> 12), 0x80 ||| ((n >>> 6) &&& 0x3F), 0x80 ||| (n &&& 0x3F)]
  else
    [0xF0 ||| (n >>> 18), 0x80 ||| ((n >>> 12) &&& 0x3F),
     0x80 ||| ((n >>> 6) &&& 0x3F), 0x80 ||| (n &&& 0x3F)]

/-- UTF-8 encoding of a string, as the list of its bytes
(`combined.encode('utf-8')` in the source). -/
def utf8Encode (cs : List Char) : List Nat :=
  match cs with
  | [] => []
  | c :: rest => utf8Char c.toNat ++ utf8Encode rest

/-! ### SHA-256 (`hashlib.sha256`), bit-for-bit over `Nat` -/

/-- Truncation to a 32-bit word. -/
def w32 (n : Nat) : Nat := n % 4294967296

/-- Rotate a 32-bit word right by `k` positions. -/
def rotr (k x : Nat) : Nat := w32 ((x >>> k) ||| (x <<< (32 - k)))

def bigSigma0 (x : Nat) : Nat := (rotr 2 x) ^^^ (rotr 13 x) ^^^ (rotr 22 x)

def bigSigma1 (x : Nat) : Nat := (rotr 6 x) ^^^ (rotr 11 x) ^^^ (rotr 25 x)

def smallSigma0 (x : Nat) : Nat := (rotr 7 x) ^^^ (rotr 18 x) ^^^ (x >>> 3)

def smallSigma1 (x : Nat) : Nat := (rotr 17 x) ^^^ (rotr 19 x) ^^^ (x >>> 10)

/-- SHA-256 choice function; `x ^^^ 0xFFFFFFFF` is the 32-bit complement. -/
def chF (x y z : Nat) : Nat := (x &&& y) ^^^ ((x ^^^ 0xFFFFFFFF) &&& z)

def majF (x y z : Nat) : Nat := (x &&& y) ^^^ (x &&& z) ^^^ (y &&& z)

/-- The sixty-four SHA-256 round constants, as decimal words (the
fractional parts of the cube roots of the first 64 primes). -/
def K256 : List Nat :=
  [1116352408, 1899447441, 3049323471, 3921009573,
   961987163, 1508970993, 2453635748, 2870763221,
   3624381080, 310598401, 607225278, 1426881987,
   1925078388, 2162078206, 2614888103, 3248222580,
   3835390401, 4022224774, 264347078, 604807628,
   770255983, 1249150122, 1555081692, 1996064986,
   2554220882, 2821834349, 2952996808, 3210313671,
   3336571891, 3584528711, 113926993, 338241895,
   666307205, 773529912, 1294757372, 1396182291,
   1695183700, 1986661051, 2177026350, 2456956037,
   2730485921, 2820302411, 3259730800, 3345764771,
   3516065817, 3600352804, 4094571909, 275423344,
   430227734, 506948616, 659060556, 883997877,
   958139571, 1322822218, 1537002063, 1747873779,
   1955562222, 2024104815, 2227730452, 2361852424,
   2428436474, 2756734187, 3204031479, 3329325298]

/-- The initial SHA-256 hash state, as decimal words. -/
def H256 : List Nat :=
  [1779033703, 3144134277, 1013904242, 2773480762,
   1359893119, 2600822924, 528734635, 1541459225]

/-- `k` bytes of `n`, big-endian. -/
def beBytes (k n : Nat) : List Nat :=
  match k with
  | 0 => []
  | j + 1 => ((n >>> (8 * j)) % 256) :: beBytes j n

/-- SHA-256 padding: append `0x80`, zero bytes up to 56 mod 64, then the
bit length as 8 big-endian bytes. -/
def padMessage (msg : List Nat) : List Nat :=
  let L := msg.length
  let z := (120 - ((L + 1) % 64)) % 64
  msg ++ [0x80] ++ List.replicate z 0 ++ beBytes 8 (8 * L)

/-- Group bytes into big-endian 32-bit words. -/
def toWords (bytes : List Nat) : List Nat :=
  match bytes with
  | b0 :: b1 :: b2 :: b3 :: rest =>
      ((b0 <<< 24) ||| (b1 <<< 16) ||| (b2 <<< 8) ||| b3) :: toWords rest
  | _ => []

/-- Extend the message schedule by `t` further words; the accumulator holds
the schedule so far, most recent word first. -/
def extendSchedule : Nat → List Nat → List Nat
  | 0, acc => acc
  | t + 1, acc =>
      extendSchedule t
        (w32 (smallSigma1 (acc.getD 1 0) + acc.getD 6 0 +
              smallSigma0 (acc.getD 14 0) + acc.getD 15 0) :: acc)

/-- The 64-word message schedule of one 64-byte block. -/
def schedule (block : List Nat) : List Nat :=
  (extendSchedule 48 (toWords block).reverse).reverse

/-- One compression round: the state is `[a,b,c,d,e,f,g,h]` and `kw` is
`K[t] + W[t]` already reduced mod `2^32`. -/
def roundStep (st : List Nat) (kw : Nat) : List Nat :=
  match st with
  | [a, b, c, d, e, f, g, h] =>
      let t1 := w32 (h + bigSigma1 e + chF e f g + kw)
      let t2 := w32 (bigSigma0 a + majF a b c)
      [w32 (t1 + t2), a, b, c, w32 (d + t1), e, f, g]
  | other => other

/-- Compress one 64-byte block into the running hash state. -/
def compressBlock (hs block : List Nat) : List Nat :=
  let kws := (K256.zip (schedule block)).map (fun p => w32 (p.1 + p.2))
  let st := kws.foldl roundStep hs
  (hs.zip st).map (fun p => w32 (p.1 + p.2))

/-- Fold the compression function over all 64-byte blocks.  The first
argument is fuel; invoked with the padded length it always suffices,
since each step consumes 64 bytes and at least one unit of fuel. -/
def sha256Go : Nat → List Nat → List Nat → List Nat
  | _, hs, [] => hs
  | 0, hs, _ :: _ => hs
  | fuel + 1, hs, bytes@(_ :: _) =>
      sha256Go fuel (compressBlock hs (bytes.take 64)) (bytes.drop 64)

/-- SHA-256 of a byte string, as the final eight 32-bit words. -/
def sha256Words (msg : List Nat) : List Nat :=
  let padded := padMessage msg
  sha256Go padded.length H256 padded

/-- SHA-256 digest of a byte string, as its 32 bytes
(`hash_object.hexdigest()` prints exactly these bytes in hex). -/
def sha256Digest (msg : List Nat) : List Nat :=
  (sha256Words msg).foldr (fun w acc => beBytes 4 w ++ acc) []

/-! ### Exact model of CPython binary64 arithmetic

`hash_int / 0xFFFFFFFF` and `... * 100` are IEEE-754 binary64 operations:
each computes the exact rational result and rounds it to the nearest
representable double, ties to even.  On the domain reached by this
program every value is strictly inside the normal range, so rounding to
53 significant bits with unbounded exponent is an exact model.  The
rounding function is written over `Nat` numerator/denominator pairs so
the kernel can evaluate it. -/

/-- Fuelled binary logarithm: `log2fuel f n = ⌊log₂ n⌋` whenever
`1 ≤ n < 2 ^ f`. -/
def log2fuel : Nat → Nat → Nat
  | 0, _ => 0
  | f + 1, n => if n < 2 then 0 else log2fuel f (n / 2) + 1

/-- `⌊log₂ n⌋` for `n ≥ 1` (the fuel `n` always suffices as `n < 2 ^ n`). -/
def log2n (n : Nat) : Nat := log2fuel n n

/-- The binade exponent of the positive rational `a / b`: the unique `e`
with `2 ^ e ≤ a / b < 2 ^ (e + 1)`. -/
def qexp (a b : Nat) : Int :=
  let t := log2n b + 1
  (log2n (a * 2 ^ t / b) : Int) - (t : Int)

/-- Round the nonnegative rational `A / B` to the nearest integer, ties
to even. -/
def roundNearestNat (A B : Nat) : Nat :=
  if 2 * (A % B) < B then A / B
  else if B < 2 * (A % B) then A / B + 1
  else if (A / B) % 2 = 0 then A / B else A / B + 1

/-- Round the nonnegative rational `a / b` to the nearest binary64
value (round-to-nearest, ties-to-even), returned as an exact rational:
the 53-bit significand is obtained by rounding `a / b` scaled into
`[2^52, 2^53)`, and the binade exponent restores the scale. -/
def flN (a b : Nat) : ℚ :=
  if a = 0 then 0
  else if qexp a b < 52 then
    mkRat (roundNearestNat (a * 2 ^ (52 - qexp a b).toNat) b : Int)
      (2 ^ (52 - qexp a b).toNat)
  else if qexp a b = 52 then
    mkRat (roundNearestNat a b : Int) 1
  else
    mkRat ((roundNearestNat a (b * 2 ^ (qexp a b - 52).toNat) *
      2 ^ (qexp a b - 52).toNat : Nat) : Int) 1

/-! ### The service (`app/feature_flag_service.py`) -/

/-- `combined = f"{user_id}:{flag_name}"`. -/
def combinedKey (user_id flag_name : String) : String :=
  user_id ++ ":" ++ flag_name

/-- `int(hash_hex[:8], 16)`: the first 8 hex digits of the digest are its
first 4 bytes, read big-endian. -/
def hashIntOf (digest : List Nat) : Nat :=
  match digest with
  | b0 :: b1 :: b2 :: b3 :: _ => (b0 <<< 24) ||| (b1 <<< 16) ||| (b2 <<< 8) ||| b3
  | _ => 0

/-- The 32-bit hash prefix of a user/flag pair. -/
def hashInt (user_id flag_name : String) : Nat :=
  hashIntOf (sha256Digest (utf8Encode (combinedKey user_id flag_name).data))

/-- The bucket value of a byte string: `(int(hex[:8],16) / 0xFFFFFFFF) * 100`
in binary64 arithmetic, as an exact rational. -/
def bucketOfBytes (msg : List Nat) : ℚ :=
  let hash_int := hashIntOf (sha256Digest msg)
  let d := flN hash_int 0xFFFFFFFF
  flN (d.num.toNat * 100) d.den

/-- `FeatureFlagService.hash_user_flag`. -/
def hash_user_flag (user_id flag_name : String) : ℚ :=
  bucketOfBytes (utf8Encode (combinedKey user_id flag_name).data)

/-- The `FeatureFlag` row of `app/models.py` (the fields evaluation can
see; `id` and the audit timestamps are never read by the service).
`rollout_percentage` is a nullable SQL `Float`, hence `Option ℚ` with the
stored double's exact rational value. -/
structure FeatureFlag where
  flag_name : String
  status : Bool
  rollout_percentage : Option ℚ
  description : Option String
deriving DecidableEq

/-- `FeatureFlagService.is_flag_enabled_for_user`. -/
def is_flag_enabled_for_user (flag : FeatureFlag) (user_id : String) : Bool :=
  if !flag.status then false
  else
    match flag.rollout_percentage with
    | none => true
    | some rp => decide (hash_user_flag user_id flag.flag_name ≤ rp)

/-- One entry of the service's evaluation output
(`{"flag_name": ..., "enabled": ..., "description": ...}`). -/
structure UserFlagResult where
  flag_name : String
  enabled : Bool
  description : Option String
deriving DecidableEq

/-- The record built for one flag inside both evaluation entry points. -/
def resultFor (flag : FeatureFlag) (user_id : String) : UserFlagResult :=
  ⟨flag.flag_name, is_flag_enabled_for_user flag user_id, flag.description⟩

/-- `FeatureFlagService.evaluate_flags_for_user`; the store's enumeration
(`db.query(FeatureFlag).all()`) is the input list. -/
def evaluate_flags_for_user (flags : List FeatureFlag) (user_id : String) :
    List UserFlagResult :=
  flags.map (fun flag => resultFor flag user_id)

/-- The lookup `db.query(FeatureFlag).filter(...flag_name == flag_name).first()`:
the first stored flag with the requested name, if any. -/
def findFlag (flags : List FeatureFlag) (flag_name : String) : Option FeatureFlag :=
  flags.find? (fun flag => flag.flag_name == flag_name)

/-- `FeatureFlagService.evaluate_single_flag_for_user`. -/
def evaluate_single_flag_for_user (flags : List FeatureFlag)
    (flag_name user_id : String) : Option UserFlagResult :=
  match findFlag flags flag_name with
  | none => none
  | some flag => some (resultFor flag user_id)

/-! ### Basic facts about the service -/

/-- The bucket computation on an already-extracted 32-bit hash value:
`(hash_int / 0xFFFFFFFF) * 100` in binary64 arithmetic. -/
def bucketOfInt (p : Nat) : ℚ :=
  let d := flN p 0xFFFFFFFF
  flN (d.num.toNat * 100) d.den

/-- Round a rational to the nearest integer, ties to even (the
mathematical restatement of `roundNearestNat`). -/
def roundHE (x : ℚ) : ℤ :=
  if Int.fract x < 1/2 then ⌊x⌋
  else if 1/2 < Int.fract x then ⌊x⌋ + 1
  else if ⌊x⌋ % 2 = 0 then ⌊x⌋ else ⌊x⌋ + 1

/-- Round a rational to the nearest binary64 value (round-to-nearest,
ties-to-even, unbounded exponent), clamping nonpositive inputs to zero:
the mathematical restatement of `flN`. -/
def fl64 (x : ℚ) : ℚ :=
  if x ≤ 0 then 0
  else (roundHE (x * (2 : ℚ) ^ (52 - Int.log 2 x)) : ℚ) * (2 : ℚ) ^ (Int.log 2 x - 52)

/-- The bucket function exactly as claimed by the specification (for the
refinement comparison of C2): map the 32-bit hash prefix into `[0,100)`
via `(prefixValue / 2^32) * 100`. -/
def specBucketClaim (user_id flag_name : String) : ℚ :=
  ((hashInt user_id flag_name : ℚ) / 2 ^ 32) * 100

theorem bucketOfBytes_eq (msg : List Nat) :
    bucketOfBytes msg = bucketOfInt (hashIntOf (sha256Digest msg)) := rfl

theorem hash_user_flag_eq (user_id flag_name : String) :
    hash_user_flag user_id flag_name = bucketOfInt (hashInt user_id flag_name) := rfl

theorem flN_nonneg (a b : Nat) : 0 ≤ flN a b := by
  unfold flN
  split
  · exact le_refl 0
  · split
    · rw [Rat.mkRat_eq_div]
      positivity
    · split
      · rw [Rat.mkRat_eq_div]
        positivity
      · rw [Rat.mkRat_eq_div]
        positivity

theorem bucketOfInt_nonneg (p : Nat) : 0 ≤ bucketOfInt p := flN_nonneg _ _

end FeatureFlags

namespace FeatureFlags

/-! ### Round-to-nearest-even as a mathematical function

`roundHE` and `fl64` restate the executable `roundNearestNat` / `flN`
over ℚ, where the algebraic lemmas live; `flN_eq_fl64` is the bridge. -/

theorem floor_le_roundHE (x : ℚ) : ⌊x⌋ ≤ roundHE x := by
  unfold roundHE
  split
  · exact le_refl _
  · split
    · omega
    · split <;> omega

theorem roundHE_le_floor_add_one (x : ℚ) : roundHE x ≤ ⌊x⌋ + 1 := by
  unfold roundHE
  split
  · omega
  · split
    · omega
    · split <;> omega

theorem roundHE_of_lt {x : ℚ} (h : Int.fract x < 1/2) : roundHE x = ⌊x⌋ := by
  unfold roundHE
  rw [if_pos h]

theorem roundHE_of_gt {x : ℚ} (h : 1/2 < Int.fract x) : roundHE x = ⌊x⌋ + 1 := by
  unfold roundHE
  rw [if_neg (by linarith), if_pos h]

theorem roundHE_mono {x y : ℚ} (h : x ≤ y) : roundHE x ≤ roundHE y := by
  rcases eq_or_lt_of_le h with rfl | hlt
  · exact le_refl _
  rcases lt_or_le ⌊x⌋ ⌊y⌋ with hf | hf
  · calc roundHE x ≤ ⌊x⌋ + 1 := roundHE_le_floor_add_one x
      _ ≤ ⌊y⌋ := by omega
      _ ≤ roundHE y := floor_le_roundHE y
  · have hfe : ⌊x⌋ = ⌊y⌋ := le_antisymm (Int.floor_le_floor h) hf
    have hfr : Int.fract x < Int.fract y := by
      unfold Int.fract
      rw [hfe]
      exact sub_lt_sub_right hlt _
    rcases lt_trichotomy (Int.fract x) (1/2) with h1 | h1 | h1
    · rw [roundHE_of_lt h1, hfe]
      exact floor_le_roundHE y
    · have hy : 1/2 < Int.fract y := h1 ▸ hfr
      rw [roundHE_of_gt hy]
      calc roundHE x ≤ ⌊x⌋ + 1 := roundHE_le_floor_add_one x
        _ = ⌊y⌋ + 1 := by rw [hfe]
    · have hy : 1/2 < Int.fract y := lt_trans h1 hfr
      rw [roundHE_of_gt h1, roundHE_of_gt hy, hfe]

/-! ### Correctness of the fuelled logarithm and of `qexp` -/

theorem log2fuel_correct (f : Nat) : ∀ n : Nat, 0 < n → n < 2 ^ f →
    2 ^ log2fuel f n ≤ n ∧ n < 2 ^ (log2fuel f n + 1) := by
  induction f with
  | zero => intro n h1 h2; omega
  | succ f ih =>
    intro n h1 h2
    unfold log2fuel
    split
    · have : n = 1 := by omega
      subst this
      constructor <;> simp
    · rename_i hn
      push_neg at hn
      have hdiv : 0 < n / 2 := Nat.div_pos hn (by norm_num)
      have hlt : n / 2 < 2 ^ f := by
        have h2f : 2 ^ (f + 1) = 2 * 2 ^ f := by rw [Nat.pow_succ]; ring
        omega
      obtain ⟨hl, hr⟩ := ih (n / 2) hdiv hlt
      set k := log2fuel f (n / 2) with hk
      have e1 : 2 ^ (k + 1) = 2 * 2 ^ k := by rw [Nat.pow_succ]; ring
      have e2 : 2 ^ (k + 1 + 1) = 2 * 2 ^ (k + 1) := by rw [Nat.pow_succ]; ring
      constructor
      · calc 2 ^ (k + 1) = 2 * 2 ^ k := e1
          _ ≤ 2 * (n / 2) := by omega
          _ ≤ n := by omega
      · have : n < 2 * (n / 2) + 2 := by omega
        calc n < 2 * (n / 2) + 2 := this
          _ ≤ 2 * (2 ^ (k + 1) - 1) + 2 := by omega
          _ ≤ 2 ^ (k + 1 + 1) := by omega

theorem log2n_correct {n : Nat} (h : 0 < n) :
    2 ^ log2n n ≤ n ∧ n < 2 ^ (log2n n + 1) :=
  log2fuel_correct n n h (Nat.lt_two_pow n)

/-- `qexp a b` is the binade exponent of `a / b`. -/
theorem qexp_correct {a b : Nat} (ha : 0 < a) (hb : 0 < b) :
    (2 : ℚ) ^ (qexp a b) ≤ (a : ℚ) / b ∧ (a : ℚ) / b < (2 : ℚ) ^ (qexp a b + 1) := by
  unfold qexp
  set t := log2n b + 1 with ht
  obtain ⟨hbl, hbr⟩ := log2n_correct hb
  have hNpos : 0 < a * 2 ^ t / b := by
    apply Nat.div_pos _ hb
    calc b ≤ 2 ^ t := le_of_lt hbr
      _ ≤ a * 2 ^ t := Nat.le_mul_of_pos_left _ ha
  set N := a * 2 ^ t / b with hN
  obtain ⟨hNl, hNr⟩ := log2n_correct hNpos
  set k := log2n N with hk
  have hbQ : (0 : ℚ) < (b : ℚ) := by exact_mod_cast hb
  have htQ : (0 : ℚ) < (2 : ℚ) ^ t := by positivity
  -- the two sides, as pure Nat inequalities
  have hn1 : 2 ^ k * b ≤ a * 2 ^ t := by
    calc 2 ^ k * b ≤ N * b := Nat.mul_le_mul_right b hNl
      _ ≤ a * 2 ^ t := Nat.div_mul_le_self _ _
  have hn2 : a * 2 ^ t < 2 ^ (k + 1) * b := by
    have hmod := Nat.div_add_mod (a * 2 ^ t) b
    rw [← hN] at hmod
    have hmlt : (a * 2 ^ t) % b < b := Nat.mod_lt _ hb
    have hsm : (N + 1) * b = b * N + b := by ring
    have : a * 2 ^ t < (N + 1) * b := by omega
    calc a * 2 ^ t < (N + 1) * b := this
      _ ≤ 2 ^ (k + 1) * b := Nat.mul_le_mul_right b (by omega)
  constructor
  · rw [zpow_sub₀ (two_ne_zero), zpow_natCast, zpow_natCast,
      div_le_div_iff₀ htQ hbQ]
    exact_mod_cast hn1
  · rw [show (k : ℤ) - (t : ℤ) + 1 = ((k + 1 : ℕ) : ℤ) - (t : ℤ) by push_cast; ring,
      zpow_sub₀ (two_ne_zero), zpow_natCast, zpow_natCast,
      div_lt_div_iff₀ hbQ htQ]
    exact_mod_cast hn2

theorem qexp_eq_log {a b : Nat} (ha : 0 < a) (hb : 0 < b) :
    qexp a b = Int.log 2 ((a : ℚ) / b) := by
  obtain ⟨h1, h2⟩ := qexp_correct ha hb
  have hx : (0 : ℚ) < (a : ℚ) / b := by
    have ha' : (0 : ℚ) < (a : ℚ) := by exact_mod_cast ha
    have hb' : (0 : ℚ) < (b : ℚ) := by exact_mod_cast hb
    positivity
  have hcast : ((2 : ℕ) : ℚ) = (2 : ℚ) := by norm_num
  have hle : qexp a b ≤ Int.log 2 ((a : ℚ) / b) := by
    rw [← Int.zpow_le_iff_le_log one_lt_two hx, hcast]
    exact h1
  have hlt : Int.log 2 ((a : ℚ) / b) < qexp a b + 1 := by
    rw [← Int.lt_zpow_iff_log_lt one_lt_two hx, hcast]
    exact h2
  omega

theorem floor_natCast_div {A B : Nat} (hB : 0 < B) :
    ⌊(A : ℚ) / B⌋ = ((A / B : Nat) : ℤ) := by
  have hBQ : (0 : ℚ) < (B : ℚ) := by exact_mod_cast hB
  rw [Int.floor_eq_iff]
  constructor
  · rw [Int.cast_natCast, le_div_iff₀ hBQ]
    exact_mod_cast Nat.div_mul_le_self A B
  · rw [Int.cast_natCast, div_lt_iff₀ hBQ]
    have hmod := Nat.div_add_mod A B
    have hmlt : A % B < B := Nat.mod_lt _ hB
    have : A < (A / B + 1) * B := by
      have : (A / B + 1) * B = B * (A / B) + B := by ring
      omega
    exact_mod_cast this

theorem fract_natCast_div {A B : Nat} (hB : 0 < B) :
    Int.fract ((A : ℚ) / B) = ((A % B : Nat) : ℚ) / B := by
  have hBQ : (0 : ℚ) < (B : ℚ) := by exact_mod_cast hB
  unfold Int.fract
  rw [floor_natCast_div hB]
  have hmod := Nat.div_add_mod A B
  have : (A : ℚ) = (B : ℚ) * ((A / B : Nat) : ℚ) + ((A % B : Nat) : ℚ) := by
    exact_mod_cast congrArg (fun n : Nat => (n : ℚ)) hmod.symm
  rw [Int.cast_natCast]
  field_simp
  linarith [this]

theorem roundNearestNat_eq_roundHE {A B : Nat} (hB : 0 < B) :
    (roundNearestNat A B : ℤ) = roundHE ((A : ℚ) / B) := by
  have hBQ : (0 : ℚ) < (B : ℚ) := by exact_mod_cast hB
  have hlt_iff : Int.fract ((A : ℚ) / B) < 1/2 ↔ 2 * (A % B) < B := by
    have hc1 : ((A % B : Nat) : ℚ) * 2 < (B : ℚ) ↔ (A % B) * 2 < B := by
      exact_mod_cast Iff.rfl
    rw [fract_natCast_div hB, div_lt_div_iff₀ hBQ (by norm_num : (0:ℚ) < 2),
      one_mul, hc1]
    omega
  have hgt_iff : 1/2 < Int.fract ((A : ℚ) / B) ↔ B < 2 * (A % B) := by
    have hc1 : (B : ℚ) < ((A % B : Nat) : ℚ) * 2 ↔ B < (A % B) * 2 := by
      exact_mod_cast Iff.rfl
    rw [fract_natCast_div hB, div_lt_div_iff₀ (by norm_num : (0:ℚ) < 2) hBQ,
      one_mul, hc1]
    omega
  unfold roundNearestNat
  rcases lt_trichotomy (2 * (A % B)) B with hc | hc | hc
  · rw [if_pos hc, roundHE_of_lt (hlt_iff.mpr hc), floor_natCast_div hB]
  · have hnl : ¬ 2 * (A % B) < B := by omega
    have hnr : ¬ B < 2 * (A % B) := by omega
    rw [if_neg hnl, if_neg hnr]
    have hfr : Int.fract ((A : ℚ) / B) = 1/2 := by
      rcases lt_trichotomy (Int.fract ((A : ℚ) / B)) (1/2) with h | h | h
      · exact absurd (hlt_iff.mp h) hnl
      · exact h
      · exact absurd (hgt_iff.mp h) hnr
    unfold roundHE
    rw [hfr, if_neg (lt_irrefl _), if_neg (lt_irrefl _), floor_natCast_div hB]
    by_cases hp : (A / B) % 2 = 0
    · have hpz : ((A / B : Nat) : ℤ) % 2 = 0 := by exact_mod_cast hp
      rw [if_pos hp, if_pos hpz]
    · have hpz : ¬ ((A / B : Nat) : ℤ) % 2 = 0 := fun hzz => hp (by exact_mod_cast hzz)
      rw [if_neg hp, if_neg hpz]
      push_cast
      ring
  · have hnl : ¬ 2 * (A % B) < B := by omega
    rw [if_neg hnl, if_pos hc, roundHE_of_gt (hgt_iff.mpr hc), floor_natCast_div hB]
    push_cast
    ring

/-- The executable rounding `flN` agrees with the mathematical rounding
`fl64` on the rational `a / b`. -/
theorem flN_eq_fl64 (a b : Nat) (hb : 0 < b) : flN a b = fl64 ((a : ℚ) / b) := by
  rcases Nat.eq_zero_or_pos a with rfl | ha
  · unfold flN fl64
    norm_num
  · have haQ : (0 : ℚ) < (a : ℚ) := by exact_mod_cast ha
    have hbQ : (0 : ℚ) < (b : ℚ) := by exact_mod_cast hb
    have hx : (0 : ℚ) < (a : ℚ) / b := by positivity
    unfold flN fl64
    rw [if_neg (by omega : ¬ a = 0), if_neg (not_le_of_lt hx), ← qexp_eq_log ha hb]
    set e := qexp a b with he
    rcases lt_trichotomy e 52 with h52 | h52 | h52
    · rw [if_pos h52]
      have hs : (0 : ℤ) ≤ 52 - e := by omega
      have hps : (2 : ℚ) ^ ((52 : ℤ) - e) = ((2 ^ (52 - e).toNat : Nat) : ℚ) := by
        rw [Nat.cast_pow, Nat.cast_ofNat, ← zpow_natCast (2 : ℚ) (52 - e).toNat,
          Int.toNat_of_nonneg hs]
      have harg : ((a * 2 ^ (52 - e).toNat : Nat) : ℚ) / b =
          (a : ℚ) / b * (2 : ℚ) ^ ((52 : ℤ) - e) := by
        rw [hps]
        push_cast
        ring
      have hm : (((roundNearestNat (a * 2 ^ (52 - e).toNat) b : Nat) : ℤ) : ℚ) =
          ((roundHE (((a * 2 ^ (52 - e).toNat : Nat) : ℚ) / b) : ℤ) : ℚ) := by
        exact_mod_cast congrArg (fun z : ℤ => (z : ℚ)) (roundNearestNat_eq_roundHE hb)
      have hzz : (2 : ℚ) ^ (e - (52 : ℤ)) = ((2 ^ (52 - e).toNat : Nat) : ℚ)⁻¹ := by
        rw [show e - (52 : ℤ) = -(52 - e) by ring, zpow_neg, hps]
      rw [Rat.mkRat_eq_div, hm, harg, hzz, div_eq_mul_inv]
    · rw [if_neg (by omega : ¬ e < 52), if_pos h52, Rat.mkRat_one, h52]
      have hm : (((roundNearestNat a b : Nat) : ℤ) : ℚ) =
          ((roundHE ((a : ℚ) / b) : ℤ) : ℚ) := by
        exact_mod_cast congrArg (fun z : ℤ => (z : ℚ)) (roundNearestNat_eq_roundHE hb)
      rw [hm]
      norm_num
    · rw [if_neg (by omega : ¬ e < 52), if_neg (by omega : ¬ e = 52)]
      have hu : (2 : ℚ) ^ (e - (52 : ℤ)) = ((2 ^ (e - 52).toNat : Nat) : ℚ) := by
        rw [Nat.cast_pow, Nat.cast_ofNat, ← zpow_natCast (2 : ℚ) (e - 52).toNat,
          Int.toNat_of_nonneg (by omega : (0:ℤ) ≤ e - 52)]
      have hbu : (0 : Nat) < b * 2 ^ (e - 52).toNat := by positivity
      have harg : ((a : ℚ)) / ((b * 2 ^ (e - 52).toNat : Nat) : ℚ) =
          (a : ℚ) / b * (2 : ℚ) ^ ((52 : ℤ) - e) := by
        have hinv : (2 : ℚ) ^ ((52 : ℤ) - e) = ((2 ^ (e - 52).toNat : Nat) : ℚ)⁻¹ := by
          rw [show (52 : ℤ) - e = -(e - 52) by ring, zpow_neg, hu]
        rw [hinv]
        push_cast
        ring
      have hm : (((roundNearestNat a (b * 2 ^ (e - 52).toNat) : Nat) : ℤ) : ℚ) =
          ((roundHE ((a : ℚ) / ((b * 2 ^ (e - 52).toNat : Nat) : ℚ)) : ℤ) : ℚ) := by
        exact_mod_cast congrArg (fun z : ℤ => (z : ℚ)) (roundNearestNat_eq_roundHE hbu)
      have hL : (((roundNearestNat a (b * 2 ^ (e - 52).toNat) *
          2 ^ (e - 52).toNat : Nat) : ℤ) : ℚ) =
          (((roundNearestNat a (b * 2 ^ (e - 52).toNat) : Nat) : ℤ) : ℚ) *
            ((2 ^ (e - 52).toNat : Nat) : ℚ) := by
        push_cast
        ring
      rw [Rat.mkRat_one, hL, hm, harg, hu]

theorem fl64_nonneg (x : ℚ) : 0 ≤ fl64 x := by
  unfold fl64
  split
  · exact le_refl 0
  · rename_i hx
    push_neg at hx
    have hm : (0:ℚ) < x * 2 ^ (52 - Int.log 2 x) := by positivity
    have h1 : (0:ℤ) ≤ roundHE (x * 2 ^ (52 - Int.log 2 x)) := by
      have hb := floor_le_roundHE (x * 2 ^ (52 - Int.log 2 x))
      have h0 : (0:ℤ) ≤ ⌊x * 2 ^ (52 - Int.log 2 x)⌋ := Int.floor_nonneg.mpr (le_of_lt hm)
      omega
    have h2 : (0:ℚ) ≤ (2:ℚ) ^ (Int.log 2 x - 52) := le_of_lt (by positivity)
    exact mul_nonneg (by exact_mod_cast h1) h2

theorem x_lt_zpow_succ_log {x : ℚ} :
    x < (2:ℚ) ^ (Int.log 2 x + 1) := by
  have hh := Int.lt_zpow_succ_log_self (by norm_num : 1 < 2) x (R := ℚ)
  have hc : ((2:ℕ):ℚ) = (2:ℚ) := by norm_num
  rwa [hc] at hh

theorem zpow_log_le_x {x : ℚ} (hx : 0 < x) :
    (2:ℚ) ^ (Int.log 2 x) ≤ x := by
  have hh := Int.zpow_log_le_self (b := 2) (by norm_num : 1 < 2) hx (R := ℚ)
  have hc : ((2:ℕ):ℚ) = (2:ℚ) := by norm_num
  rwa [hc] at hh

theorem fl64_le_zpow {x : ℚ} (hx : 0 < x) :
    fl64 x ≤ (2:ℚ) ^ (Int.log 2 x + 1) := by
  unfold fl64
  rw [if_neg (not_le_of_lt hx)]
  set e := Int.log 2 x with he
  have hm0 : x * 2 ^ (52 - e) < (2:ℚ) ^ (53:ℤ) := by
    calc x * 2 ^ (52 - e) < 2 ^ (e + 1) * 2 ^ (52 - e) :=
          mul_lt_mul_of_pos_right x_lt_zpow_succ_log (by positivity)
      _ = 2 ^ (53:ℤ) := by
          rw [← zpow_add₀ (two_ne_zero : (2:ℚ) ≠ 0),
            show Int.log 2 x + 1 + (52 - Int.log 2 x) = (53:ℤ) by ring]
  have hfl : ⌊x * 2 ^ (52 - e)⌋ < 2 ^ 53 := by
    rw [Int.floor_lt]
    calc x * 2 ^ (52 - e) < (2:ℚ) ^ (53:ℤ) := hm0
      _ = (((2:ℤ) ^ 53 : ℤ) : ℚ) := by norm_num
  have hr : roundHE (x * 2 ^ (52 - e)) ≤ 2 ^ 53 := by
    have hb := roundHE_le_floor_add_one (x * 2 ^ (52 - e))
    omega
  calc (roundHE (x * 2 ^ (52 - e)) : ℚ) * 2 ^ (e - 52)
      ≤ (((2:ℤ) ^ 53 : ℤ) : ℚ) * 2 ^ (e - 52) := by
        apply mul_le_mul_of_nonneg_right _ (le_of_lt (by positivity))
        exact_mod_cast hr
    _ = 2 ^ (e + 1) := by
        rw [show (((2:ℤ) ^ 53 : ℤ) : ℚ) = (2:ℚ) ^ (53:ℤ) by norm_num,
          ← zpow_add₀ (two_ne_zero : (2:ℚ) ≠ 0),
          show (53:ℤ) + (Int.log 2 x - 52) = Int.log 2 x + 1 by ring]

theorem zpow_le_fl64 {x : ℚ} (hx : 0 < x) :
    (2:ℚ) ^ (Int.log 2 x) ≤ fl64 x := by
  unfold fl64
  rw [if_neg (not_le_of_lt hx)]
  set e := Int.log 2 x with he
  have hm0 : (2:ℚ) ^ (52:ℤ) ≤ x * 2 ^ (52 - e) := by
    calc (2:ℚ) ^ (52:ℤ) = 2 ^ e * 2 ^ (52 - e) := by
          rw [← zpow_add₀ (two_ne_zero : (2:ℚ) ≠ 0),
            show Int.log 2 x + (52 - Int.log 2 x) = (52:ℤ) by ring]
      _ ≤ x * 2 ^ (52 - e) :=
          mul_le_mul_of_nonneg_right (zpow_log_le_x hx) (le_of_lt (by positivity))
  have hfl : (2:ℤ) ^ 52 ≤ ⌊x * 2 ^ (52 - e)⌋ := by
    rw [Int.le_floor]
    calc (((2:ℤ) ^ 52 : ℤ) : ℚ) = (2:ℚ) ^ (52:ℤ) := by norm_num
      _ ≤ x * 2 ^ (52 - e) := hm0
  have hr : (2:ℤ) ^ 52 ≤ roundHE (x * 2 ^ (52 - e)) := by
    have hb := floor_le_roundHE (x * 2 ^ (52 - e))
    omega
  calc (2:ℚ) ^ e = (((2:ℤ) ^ 52 : ℤ) : ℚ) * 2 ^ (e - 52) := by
        rw [show (((2:ℤ) ^ 52 : ℤ) : ℚ) = (2:ℚ) ^ (52:ℤ) by norm_num,
          ← zpow_add₀ (two_ne_zero : (2:ℚ) ≠ 0),
          show (52:ℤ) + (Int.log 2 x - 52) = Int.log 2 x by ring]
    _ ≤ (roundHE (x * 2 ^ (52 - e)) : ℚ) * 2 ^ (e - 52) := by
        apply mul_le_mul_of_nonneg_right _ (le_of_lt (by positivity))
        exact_mod_cast hr

/-- Correct rounding is monotone. -/
theorem fl64_mono {x y : ℚ} (h : x ≤ y) : fl64 x ≤ fl64 y := by
  rcases le_or_lt x 0 with hx | hx
  · rw [show fl64 x = 0 by unfold fl64; rw [if_pos hx]]
    exact fl64_nonneg y
  · have hy : 0 < y := lt_of_lt_of_le hx h
    have hee : Int.log 2 x ≤ Int.log 2 y := Int.log_mono_right hx h
    rcases eq_or_lt_of_le hee with heq | hlt
    · unfold fl64
      rw [if_neg (not_le_of_lt hx), if_neg (not_le_of_lt hy), ← heq]
      have hmm : x * 2 ^ (52 - Int.log 2 x) ≤ y * 2 ^ (52 - Int.log 2 x) :=
        mul_le_mul_of_nonneg_right h (le_of_lt (by positivity))
      apply mul_le_mul_of_nonneg_right _ (le_of_lt (by positivity))
      exact_mod_cast roundHE_mono hmm
    · calc fl64 x ≤ 2 ^ (Int.log 2 x + 1) := fl64_le_zpow hx
        _ ≤ 2 ^ (Int.log 2 y) := zpow_le_zpow_right₀ (by norm_num : (1:ℚ) ≤ 2) (by omega)
        _ ≤ fl64 y := zpow_le_fl64 hy

/-! ### Bounds on the bucket computation -/

theorem beBytes_lt (k n : Nat) : ∀ x ∈ beBytes k n, x < 256 := by
  induction k generalizing n with
  | zero => intro x hx; simp [beBytes] at hx
  | succ j ih =>
    intro x hx
    unfold beBytes at hx
    rcases List.mem_cons.mp hx with h | h
    · subst h
      exact Nat.mod_lt _ (by norm_num)
    · exact ih n x h

theorem sha256Digest_bytes_lt (msg : List Nat) :
    ∀ x ∈ sha256Digest msg, x < 256 := by
  unfold sha256Digest
  generalize sha256Words msg = ws
  induction ws with
  | nil => intro x hx; simp at hx
  | cons w rest ih =>
    intro x hx
    rw [List.foldr_cons] at hx
    rcases List.mem_append.mp hx with h | h
    · exact beBytes_lt 4 w x h
    · exact ih x h

theorem hashIntOf_le {digest : List Nat} (h : ∀ x ∈ digest, x < 256) :
    hashIntOf digest ≤ 4294967295 := by
  match digest, h with
  | [], _ => show (0:Nat) ≤ 4294967295; norm_num
  | [b0], _ => show (0:Nat) ≤ 4294967295; norm_num
  | [b0, b1], _ => show (0:Nat) ≤ 4294967295; norm_num
  | [b0, b1, b2], _ => show (0:Nat) ≤ 4294967295; norm_num
  | b0 :: b1 :: b2 :: b3 :: rest, h =>
    have h0 : b0 < 256 := h b0 (by simp)
    have h1 : b1 < 256 := h b1 (by simp)
    have h2 : b2 < 256 := h b2 (by simp)
    have h3 : b3 < 256 := h b3 (by simp)
    have hp : (2:Nat) ^ 32 = 4294967296 := by norm_num
    have e0 : b0 <<< 24 < 2 ^ 32 := by rw [Nat.shiftLeft_eq]; omega
    have e1 : b1 <<< 16 < 2 ^ 32 := by rw [Nat.shiftLeft_eq]; omega
    have e2 : b2 <<< 8 < 2 ^ 32 := by rw [Nat.shiftLeft_eq]; omega
    have e3 : b3 < 2 ^ 32 := by omega
    have hor := Nat.or_lt_two_pow
      (Nat.or_lt_two_pow (Nat.or_lt_two_pow e0 e1) e2) e3
    show (b0 <<< 24) ||| (b1 <<< 16) ||| (b2 <<< 8) ||| b3 ≤ 4294967295
    omega

theorem hashInt_le (user_id flag_name : String) :
    hashInt user_id flag_name ≤ 4294967295 :=
  hashIntOf_le (sha256Digest_bytes_lt _)

/-- The bucket computation in terms of the mathematical rounding. -/
theorem bucketOfInt_eq (p : Nat) :
    bucketOfInt p = fl64 (fl64 ((p : ℚ) / 4294967295) * 100) := by
  have h0 : bucketOfInt p =
      flN ((flN p 0xFFFFFFFF).num.toNat * 100) (flN p 0xFFFFFFFF).den := rfl
  set d := flN p 0xFFFFFFFF with hd
  have hd0 : 0 ≤ d := flN_nonneg _ _
  have hnum : ((d.num.toNat : Nat) : ℚ) = (d.num : ℚ) := by
    have h1 : ((d.num.toNat : Nat) : ℤ) = d.num :=
      Int.toNat_of_nonneg (Rat.num_nonneg.mpr hd0)
    exact_mod_cast h1
  have hcast : ((d.num.toNat * 100 : Nat) : ℚ) / (d.den : ℚ) = d * 100 := by
    push_cast
    calc ((d.num.toNat : Nat) : ℚ) * 100 / (d.den : ℚ)
        = (d.num : ℚ) * 100 / d.den := by rw [hnum]
      _ = ((d.num : ℚ) / d.den) * 100 := by ring
      _ = d * 100 := by rw [Rat.num_div_den]
  have hM : ((4294967295 : Nat) : ℚ) = (4294967295 : ℚ) := by norm_num
  have hdq : d = fl64 ((p : ℚ) / (4294967295 : ℚ)) := by
    rw [hd, flN_eq_fl64 p 4294967295 (by norm_num), hM]
  rw [h0, flN_eq_fl64 _ _ d.den_pos, hcast, hdq]

theorem bucketOfInt_le_100 {p : Nat} (hp : p ≤ 4294967295) :
    bucketOfInt p ≤ 100 := by
  rw [bucketOfInt_eq]
  have hpq : (p : ℚ) ≤ 4294967295 := by exact_mod_cast hp
  have h1 : fl64 ((p : ℚ) / 4294967295) ≤ fl64 ((4294967295 : ℚ) / 4294967295) :=
    fl64_mono (by gcongr)
  have h2 : fl64 ((4294967295 : ℚ) / 4294967295) = 1 := by
    rw [div_self (by norm_num : (4294967295:ℚ) ≠ 0)]
    have ha : flN 1 1 = 1 := by decide
    have hb := flN_eq_fl64 1 1 one_pos
    rw [show ((1:Nat):ℚ) / ((1:Nat):ℚ) = (1:ℚ) by norm_num] at hb
    rw [← hb, ha]
  have h3 : fl64 (fl64 ((p : ℚ) / 4294967295) * 100) ≤ fl64 ((1:ℚ) * 100) :=
    fl64_mono (mul_le_mul_of_nonneg_right (le_of_le_of_eq h1 h2) (by norm_num))
  have h4 : fl64 ((1:ℚ) * 100) = 100 := by
    rw [one_mul]
    have ha : flN 100 1 = 100 := by decide
    have hb := flN_eq_fl64 100 1 one_pos
    rw [show ((100:Nat):ℚ) / ((1:Nat):ℚ) = (100:ℚ) by norm_num] at hb
    rw [← hb, ha]
  exact le_of_le_of_eq h3 h4

theorem bucketOfInt_lt_100 {p : Nat} (hp : p < 4294967295) :
    bucketOfInt p < 100 := by
  rw [bucketOfInt_eq]
  have hpq : (p : ℚ) ≤ 4294967294 := by exact_mod_cast Nat.le_of_lt_succ hp
  have h1 : fl64 ((p : ℚ) / 4294967295) ≤ fl64 ((4294967294 : ℚ) / 4294967295) :=
    fl64_mono (by gcongr)
  have h2 : fl64 ((4294967294 : ℚ) / 4294967295) = mkRat 4294967295 4294967296 := by
    have ha : flN 4294967294 4294967295 = mkRat 4294967295 4294967296 := by decide
    have hb := flN_eq_fl64 4294967294 4294967295 (by norm_num)
    rw [show ((4294967294:Nat):ℚ) / ((4294967295:Nat):ℚ) =
      (4294967294:ℚ) / 4294967295 by norm_num] at hb
    rw [← hb, ha]
  have h3 : fl64 (fl64 ((p : ℚ) / 4294967295) * 100) ≤
      fl64 ((mkRat 4294967295 4294967296 : ℚ) * 100) :=
    fl64_mono (mul_le_mul_of_nonneg_right (le_of_le_of_eq h1 h2) (by norm_num))
  have h4 : fl64 ((mkRat 4294967295 4294967296 : ℚ) * 100) =
      mkRat 107374182375 1073741824 := by
    have hc : (mkRat 4294967295 4294967296 : ℚ) * 100 =
        ((4294967295 * 100 : Nat) : ℚ) / ((4294967296 : Nat) : ℚ) := by
      rw [Rat.mkRat_eq_div]
      push_cast
      ring
    rw [hc, ← flN_eq_fl64 _ _ (by norm_num)]
    decide
  have h5 : (mkRat 107374182375 1073741824 : ℚ) < 100 := by decide
  exact lt_of_le_of_lt (le_of_le_of_eq h3 h4) h5

theorem bucketOfInt_at_max : bucketOfInt 4294967295 = 100 := by decide

theorem bucketOfInt_eq_100_iff {p : Nat} (hp : p ≤ 4294967295) :
    bucketOfInt p = 100 ↔ p = 4294967295 := by
  constructor
  · intro h
    by_contra hne
    exact absurd h (ne_of_lt (bucketOfInt_lt_100 (by omega)))
  · intro h
    rw [h]
    exact bucketOfInt_at_max

/-! ### The claims -/

/-- C4: for every flag whose `status` is false, `is_flag_enabled_for_user`
returns false for every user, regardless of `rollout_percentage`. -/
theorem kill_switch_off_for_all (flag : FeatureFlag) (user_id : String)
    (h : flag.status = false) :
    is_flag_enabled_for_user flag user_id = false := by
  simp [is_flag_enabled_for_user, h]

/-- Witness for C4 at a concrete disabled flag with full rollout. -/
theorem kill_switch_off_for_all_witness :
    is_flag_enabled_for_user
      ⟨"dark-mode", false, some 100, some "off switch"⟩ "alice" = false :=
  kill_switch_off_for_all ⟨"dark-mode", false, some 100, some "off switch"⟩ "alice" rfl

/-- C5: for every flag with `status` true and absent `rollout_percentage`,
`is_flag_enabled_for_user` returns true for every user. -/
theorem absent_rollout_full_on (flag : FeatureFlag) (user_id : String)
    (h1 : flag.status = true) (h2 : flag.rollout_percentage = none) :
    is_flag_enabled_for_user flag user_id = true := by
  simp [is_flag_enabled_for_user, h1, h2]

/-- Witness for C5 at a concrete always-on flag. -/
theorem absent_rollout_full_on_witness :
    is_flag_enabled_for_user ⟨"dark-mode", true, none, none⟩ "alice" = true :=
  absent_rollout_full_on ⟨"dark-mode", true, none, none⟩ "alice" rfl rfl

/-- C6: bulk evaluation returns one `{flag_name, enabled, description}`
record per flag, in the store's enumeration order, each record being a
function of that flag alone (with `enabled` given by
`is_flag_enabled_for_user`). -/
theorem bulk_evaluation_pointwise (flags : List FeatureFlag) (user_id : String) :
    (evaluate_flags_for_user flags user_id).length = flags.length ∧
    ∀ i : Nat, (evaluate_flags_for_user flags user_id)[i]? =
      (flags[i]?).map (fun flag =>
        UserFlagResult.mk flag.flag_name (is_flag_enabled_for_user flag user_id)
          flag.description) := by
  constructor
  · simp [evaluate_flags_for_user]
  · intro i
    simp [evaluate_flags_for_user, resultFor]

/-- C7: single-flag evaluation returns `none` exactly when the lookup
finds no flag of that name, and otherwise returns the record built by the
evaluator from the looked-up flag. -/
theorem single_flag_lookup_behavior (flags : List FeatureFlag)
    (flag_name user_id : String) :
    (evaluate_single_flag_for_user flags flag_name user_id = none ↔
      findFlag flags flag_name = none) ∧
    ∀ flag, findFlag flags flag_name = some flag →
      evaluate_single_flag_for_user flags flag_name user_id =
        some (UserFlagResult.mk flag.flag_name
          (is_flag_enabled_for_user flag user_id) flag.description) := by
  unfold evaluate_single_flag_for_user
  cases h : findFlag flags flag_name with
  | none => simp
  | some flag => simp [resultFor]

/-- Witness for C7: a present flag evaluates to its record, and a missing
name yields `none`. -/
theorem single_flag_lookup_behavior_witness :
    evaluate_single_flag_for_user [⟨"beta", false, none, none⟩] "beta" "alice" =
      some (UserFlagResult.mk "beta"
        (is_flag_enabled_for_user ⟨"beta", false, none, none⟩ "alice") none) ∧
    evaluate_single_flag_for_user [⟨"beta", false, none, none⟩] "gamma" "alice" =
      none :=
  ⟨(single_flag_lookup_behavior [⟨"beta", false, none, none⟩] "beta" "alice").2
      ⟨"beta", false, none, none⟩ rfl,
   (single_flag_lookup_behavior [⟨"beta", false, none, none⟩] "gamma" "alice").1.mpr
      rfl⟩

/-- C8: the `description` field never affects evaluation: two flags
agreeing on name, status and rollout percentage evaluate identically for
every user. -/
theorem description_noninterference (f1 f2 : FeatureFlag) (user_id : String)
    (hn : f1.flag_name = f2.flag_name) (hs : f1.status = f2.status)
    (hr : f1.rollout_percentage = f2.rollout_percentage) :
    is_flag_enabled_for_user f1 user_id = is_flag_enabled_for_user f2 user_id := by
  unfold is_flag_enabled_for_user
  rw [hn, hs, hr]

/-- Witness for C8 at two concrete flags differing only in description. -/
theorem description_noninterference_witness :
    is_flag_enabled_for_user ⟨"beta", false, some 50, some "text"⟩ "alice" =
      is_flag_enabled_for_user ⟨"beta", false, some 50, none⟩ "alice" :=
  description_noninterference ⟨"beta", false, some 50, some "text"⟩
    ⟨"beta", false, some 50, none⟩ "alice" rfl rfl rfl

/-- C10: the bucket value depends only on the combined key
`user_id ++ ":" ++ flag_name`; pairs whose combined keys coincide receive
identical bucket values. -/
theorem combined_key_collision (u1 f1 u2 f2 : String)
    (h : u1 ++ ":" ++ f1 = u2 ++ ":" ++ f2) :
    hash_user_flag u1 f1 = hash_user_flag u2 f2 := by
  unfold hash_user_flag combinedKey
  rw [show u1 ++ ":" ++ f1 = u2 ++ ":" ++ f2 from h]

/-- Witness for C10 at the colliding pairs `("a", "b:c")` and `("a:b", "c")`. -/
theorem combined_key_collision_witness :
    hash_user_flag "a" "b:c" = hash_user_flag "a:b" "c" :=
  combined_key_collision "a" "b:c" "a:b" "c" rfl

/-- C9: every bucket value lies in `[0, 100]`, and the upper bound `100`
is attained exactly when the first four digest bytes are all `0xFF`
(hash prefix `2^32 - 1`). -/
theorem bucket_range_and_max (user_id flag_name : String) :
    0 ≤ hash_user_flag user_id flag_name ∧
    hash_user_flag user_id flag_name ≤ 100 ∧
    (hash_user_flag user_id flag_name = 100 ↔
      hashInt user_id flag_name = 4294967295) := by
  rw [hash_user_flag_eq]
  exact ⟨bucketOfInt_nonneg _, bucketOfInt_le_100 (hashInt_le _ _),
    bucketOfInt_eq_100_iff (hashInt_le _ _)⟩

/-- C2 counterexample: at `("alice", "new-feature")` the computed bucket
differs from the claimed reference `(prefixValue / 2^32) * 100` (the code
divides by `2^32 - 1`, not `2^32`). -/
theorem bucket_reference_counterexample :
    hash_user_flag "alice" "new-feature" ≠
      specBucketClaim "alice" "new-feature" := by
  have h1 : hash_user_flag "alice" "new-feature" =
      mkRat 8611577143662639 281474976710656 := by decide
  have h2 : hashInt "alice" "new-feature" = 1314022391 := by decide
  have h3 : specBucketClaim "alice" "new-feature" = mkRat 32850559775 1073741824 := by
    unfold specBucketClaim
    rw [h2, Rat.mkRat_eq_div]
    norm_num
  rw [h1, h3]
  decide

/-- C2 (amended): the bucket value is the binary64 evaluation of
`(prefixValue / (2^32 - 1)) * 100` with the prefix the first 4 digest
bytes big-endian, and it lies in the closed interval `[0, 100]`. -/
theorem bucket_refines_rounded_reference (user_id flag_name : String) :
    hash_user_flag user_id flag_name =
      fl64 (fl64 ((hashInt user_id flag_name : ℚ) / (2 ^ 32 - 1)) * 100) ∧
    0 ≤ hash_user_flag user_id flag_name ∧
    hash_user_flag user_id flag_name ≤ 100 := by
  refine ⟨?_, ?_, ?_⟩
  · rw [hash_user_flag_eq, bucketOfInt_eq]
    norm_num
  · rw [hash_user_flag_eq]
    exact bucketOfInt_nonneg _
  · rw [hash_user_flag_eq]
    exact bucketOfInt_le_100 (hashInt_le _ _)

/-- C1 counterexample: take the rollout percentage equal to the exact
bucket value of `("alice", "new-feature")` (a representable double, and a
legal `Float` rollout in `[0,100]`).  The code enables the flag although
the bucket is not strictly below the threshold. -/
theorem rollout_strict_counterexample :
    is_flag_enabled_for_user
      ⟨"new-feature", true, some (mkRat 8611577143662639 281474976710656), none⟩
      "alice" = true ∧
    ¬ hash_user_flag "alice" "new-feature" <
        mkRat 8611577143662639 281474976710656 :=
  ⟨by decide, by decide⟩

/-- C1 (amended): with `status` true and a rollout percentage present,
the flag is enabled exactly when the bucket value is less than OR EQUAL
to the threshold (the comparison is `<=`, not strict `<`). -/
theorem rollout_threshold_inclusive (flag : FeatureFlag) (user_id : String)
    (rp : ℚ) (h1 : flag.status = true) (h2 : flag.rollout_percentage = some rp) :
    is_flag_enabled_for_user flag user_id = true ↔
      hash_user_flag user_id flag.flag_name ≤ rp := by
  simp [is_flag_enabled_for_user, h1, h2]

/-- Witness for C1 (amended) at a concrete flag with 50% rollout. -/
theorem rollout_threshold_inclusive_witness :
    is_flag_enabled_for_user ⟨"new-feature", true, some 50, none⟩ "alice" = true ↔
      hash_user_flag "alice" "new-feature" ≤ 50 :=
  rollout_threshold_inclusive ⟨"new-feature", true, some 50, none⟩ "alice" 50 rfl rfl

/-- C3 counterexample: the combined key `"0:1712324588"` has SHA-256
digest beginning with four zero bytes, so user `"0"` has bucket value `0`
for flag `"1712324588"`; with `status` true and rollout percentage `0`
the code ENABLES the flag for this user, while the claim says every user
is off. -/
theorem rollout_zero_counterexample :
    is_flag_enabled_for_user ⟨"1712324588", true, some 0, none⟩ "0" = true := by
  decide

/-- C3 (amended): with `status` true, at rollout percentage `0` the flag
is enabled exactly for the (rare) users whose bucket value is exactly
`0`; at rollout percentage `100` it is enabled for every user. -/
theorem rollout_boundaries_amended (flag : FeatureFlag) (user_id : String)
    (h1 : flag.status = true) :
    (flag.rollout_percentage = some 0 →
      (is_flag_enabled_for_user flag user_id = true ↔
        hash_user_flag user_id flag.flag_name = 0)) ∧
    (flag.rollout_percentage = some 100 →
      is_flag_enabled_for_user flag user_id = true) := by
  constructor
  · intro h2
    rw [show (is_flag_enabled_for_user flag user_id = true ↔
        hash_user_flag user_id flag.flag_name ≤ 0) from by
      simp [is_flag_enabled_for_user, h1, h2]]
    have hnn : 0 ≤ hash_user_flag user_id flag.flag_name := by
      rw [hash_user_flag_eq]
      exact bucketOfInt_nonneg _
    constructor
    · intro hle
      exact le_antisymm hle hnn
    · intro heq
      exact le_of_eq heq
  · intro h2
    rw [show (is_flag_enabled_for_user flag user_id = true ↔
        hash_user_flag user_id flag.flag_name ≤ 100) from by
      simp [is_flag_enabled_for_user, h1, h2]]
    rw [hash_user_flag_eq]
    exact bucketOfInt_le_100 (hashInt_le _ _)

/-- Witness for C3 (amended) at concrete flags with rollout 0 and 100. -/
theorem rollout_boundaries_amended_witness :
    (is_flag_enabled_for_user ⟨"beta", true, some 0, none⟩ "alice" = true ↔
      hash_user_flag "alice" "beta" = 0) ∧
    is_flag_enabled_for_user ⟨"beta", true, some 100, none⟩ "alice" = true :=
  ⟨(rollout_boundaries_amended ⟨"beta", true, some 0, none⟩ "alice" rfl).1 rfl,
   (rollout_boundaries_amended ⟨"beta", true, some 100, none⟩ "alice" rfl).2 rfl⟩

end FeatureFlags
